import Mathlib

/-!
Verification of the simcomm channel/metrics engine.

The repository drives a Monte-Carlo simulation of wireless links: complex
channel-coefficient arrays per link, aggregation of a direct link with an
RIS-reflected cascade into an effective channel gain, and reduction of
per-trial SINR/rate arrays into outage statistics.  The two notebooks under
`src` contain the outage-counting loops (`get_outage` in both notebooks), the
SINR/rate loops, and the RIS phase-shift assignment; the `comyx` library
functions they call (`Link`, `effective_channel_gain`, `generate_seed`, the
fading generator) are modelled from the specification where noted.

Floating-point arrays are embedded as functions into `ℝ`/`ℂ`; trial, antenna
and element axes are index arguments.  Order-comparison code (the outage
loops) is embedded polymorphically over a linear order so that concrete
witnesses can be evaluated over `ℚ`.
-/

namespace Simcomm

/-! ## Outage reduction (notebook `get_outage` loops) -/

/-- Loop body of the single-user `get_outage` in `ris_enhanced.ipynb`:
`if rate[i, k] < thresh: outage[i] += 1`. -/
def outage_step {α : Type} [LinearOrder α] (thresh r : α) (acc : ℕ) : ℕ :=
  if r < thresh then acc + 1 else acc

/-- The single-user `get_outage` of `ris_enhanced.ipynb`: for power index `i`,
run the inner trial loop `for k in range(mc)` accumulating `outage_step`. -/
def get_outage {α : Type} [LinearOrder α] (mc : ℕ) (rate : ℕ → ℕ → α)
    (thresh : α) (i : ℕ) : ℕ :=
  (List.range mc).foldl (fun acc k => outage_step thresh (rate i k) acc) 0

/-- The outage probability attached after the loop:
`UE.outage_wRIS = get_outage(rate_wRIS, thresh) / mc`. -/
def outage_prob {α : Type} [LinearOrder α] (mc : ℕ) (rate : ℕ → ℕ → α)
    (thresh : α) (i : ℕ) : ℚ :=
  (get_outage mc rate thresh i : ℚ) / (mc : ℚ)

/-- Loop body of the two-user NOMA `get_outage` (SISO downlink NOMA
notebook): the near user's counter increments when
`rate_nf[i,k] < thresh_f or rate_n[i,k] < thresh_n`, the far user's counter
when `rate_f[i,k] < thresh_f`. -/
def noma_outage_step {α : Type} [LinearOrder α] (thresh_n thresh_f r_nf r_n r_f : α)
    (acc : ℕ × ℕ) : ℕ × ℕ :=
  (if r_nf < thresh_f ∨ r_n < thresh_n then acc.1 + 1 else acc.1,
   if r_f < thresh_f then acc.2 + 1 else acc.2)

/-- The two-user NOMA `get_outage`: inner trial loop over `range(mc)` for
power index `i`, starting both counters at zero. -/
def get_outage_noma {α : Type} [LinearOrder α] (mc : ℕ)
    (rate_nf rate_n rate_f : ℕ → ℕ → α) (thresh_n thresh_f : α) (i : ℕ) : ℕ × ℕ :=
  (List.range mc).foldl
    (fun acc k =>
      noma_outage_step thresh_n thresh_f (rate_nf i k) (rate_n i k) (rate_f i k) acc)
    (0, 0)

/-- A conditional-increment fold over `range n` counts the indices satisfying
the condition. -/
lemma foldl_count_range (p : ℕ → Prop) [DecidablePred p] (n a : ℕ) :
    (List.range n).foldl (fun acc k => if p k then acc + 1 else acc) a
      = a + ((Finset.range n).filter p).card := by
  induction n generalizing a with
  | zero => simp
  | succ n ih =>
    rw [List.range_succ, List.foldl_append, List.foldl_cons, List.foldl_nil, ih,
      Finset.range_succ, Finset.filter_insert]
    by_cases h : p n
    · rw [if_pos h, if_pos h, Finset.card_insert_of_not_mem (by simp)]
      omega
    · rw [if_neg h, if_neg h]

/-- A fold whose step acts componentwise on a pair splits into two folds. -/
lemma foldl_pair {β γ : Type} (l : List ℕ) (s₁ : β → ℕ → β) (s₂ : γ → ℕ → γ)
    (a : β) (b : γ) :
    l.foldl (fun acc k => (s₁ acc.1 k, s₂ acc.2 k)) (a, b)
      = (l.foldl s₁ a, l.foldl s₂ b) := by
  induction l generalizing a b with
  | nil => rfl
  | cons x xs ih => simp only [List.foldl_cons]; exact ih _ _

lemma get_outage_eq_card {α : Type} [LinearOrder α] (mc : ℕ) (rate : ℕ → ℕ → α)
    (thresh : α) (i : ℕ) :
    get_outage mc rate thresh i
      = ((Finset.range mc).filter (fun k => rate i k < thresh)).card := by
  unfold get_outage outage_step
  rw [foldl_count_range (fun k => rate i k < thresh) mc 0, Nat.zero_add]

/-- C2: for every power level `i` and threshold, the outage probability
produced by the outage reduction equals exactly
`count(trials with rate < thresh) / (number of trials)` with strict
inequality, and the loop body leaves the counter unchanged on a trial whose
rate equals the threshold (boundary classified as success). -/
theorem outage_prob_strict_count {α : Type} [LinearOrder α] (mc : ℕ)
    (rate : ℕ → ℕ → α) (thresh : α) (i : ℕ) :
    outage_prob mc rate thresh i
        = (((Finset.range mc).filter (fun k => rate i k < thresh)).card : ℚ) / (mc : ℚ)
      ∧ ∀ (acc : ℕ) (r : α), r = thresh → outage_step thresh r acc = acc := by
  constructor
  · unfold outage_prob
    rw [get_outage_eq_card]
  · intro acc r hr
    subst hr
    simp [outage_step]

/-- Witness for C2 at a concrete input: two power levels, three trials over
`ℚ`, rates `0, 1, 2` at threshold `1`; exactly the strict trials are counted
and the boundary trial (rate `= 1`) does not increment the counter. -/
theorem outage_prob_strict_count_witness :
    outage_prob 3 (fun _ k => (k : ℚ)) 1 0
        = (((Finset.range 3).filter (fun k : ℕ => (k : ℚ) < 1)).card : ℚ) / (3 : ℚ)
      ∧ outage_step (1 : ℚ) 1 5 = 5 :=
  ⟨(outage_prob_strict_count 3 (fun _ k => (k : ℚ)) 1 0).1,
   (outage_prob_strict_count 3 (fun _ k => (k : ℚ)) 1 0).2 5 1 rfl⟩

/-- C5: under the NOMA successive-interference-cancellation loop, for every
power index the near user's outage count is exactly the number of trials in
which ANY required decoding-stage rate is below its threshold (logical OR of
the pre-SIC rate against the far threshold and the own-message rate against
the near threshold), the far user's count uses its single stage; moreover the
loop body increments the near counter precisely when that disjunction holds. -/
theorem noma_outage_or_across_stages {α : Type} [LinearOrder α] (mc : ℕ)
    (rate_nf rate_n rate_f : ℕ → ℕ → α) (thresh_n thresh_f : α) (i : ℕ) :
    get_outage_noma mc rate_nf rate_n rate_f thresh_n thresh_f i
        = (((Finset.range mc).filter
              (fun k => rate_nf i k < thresh_f ∨ rate_n i k < thresh_n)).card,
           ((Finset.range mc).filter (fun k => rate_f i k < thresh_f)).card)
      ∧ ∀ (k : ℕ) (acc : ℕ × ℕ),
          (noma_outage_step thresh_n thresh_f (rate_nf i k) (rate_n i k) (rate_f i k)
              acc).1 = acc.1 + 1
            ↔ (rate_nf i k < thresh_f ∨ rate_n i k < thresh_n) := by
  constructor
  · unfold get_outage_noma noma_outage_step
    rw [foldl_pair (List.range mc)
        (fun acc k => if rate_nf i k < thresh_f ∨ rate_n i k < thresh_n then acc + 1 else acc)
        (fun acc k => if rate_f i k < thresh_f then acc + 1 else acc) 0 0]
    rw [foldl_count_range (fun k => rate_nf i k < thresh_f ∨ rate_n i k < thresh_n) mc 0,
      foldl_count_range (fun k => rate_f i k < thresh_f) mc 0]
    simp
  · intro k acc
    unfold noma_outage_step
    by_cases h : rate_nf i k < thresh_f ∨ rate_n i k < thresh_n
    · simp [h]
    · simp [h]

/-! ## SINR and rate loops (MetricsEngine) -/

/-- Single-user SINR loop of `ris_enhanced.ipynb`:
`UE.sinr_wRIS[i, :] = (p * mag_eff) / N0_lin` with `p = BS.t_power[i]` and
`mag_eff` the trial-indexed squared channel-gain magnitude. -/
noncomputable def sinr_single (t_power : ℕ → ℝ) (gain : ℕ → ℝ) (N0 : ℝ) (i k : ℕ) : ℝ :=
  (t_power i * gain k) / N0

/-- Far-user SINR loop of the NOMA notebook:
`UEf.sinr[i, :] = (alloc_f * p * gain_f) / (alloc_n * p * gain_f + N0_lin)`. -/
noncomputable def sinr_far (alloc_n alloc_f : ℝ) (t_power gain_f : ℕ → ℝ) (N0 : ℝ)
    (i k : ℕ) : ℝ :=
  (alloc_f * t_power i * gain_f k) / (alloc_n * t_power i * gain_f k + N0)

/-- Near-user pre-SIC SINR loop of the NOMA notebook:
`UEn.sinr_pre[i, :] = (alloc_f * p * gain_n) / (alloc_n * p * gain_n + N0_lin)`. -/
noncomputable def sinr_pre (alloc_n alloc_f : ℝ) (t_power gain_n : ℕ → ℝ) (N0 : ℝ)
    (i k : ℕ) : ℝ :=
  (alloc_f * t_power i * gain_n k) / (alloc_n * t_power i * gain_n k + N0)

/-- Near-user post-SIC SINR loop of the NOMA notebook:
`UEn.sinr[i, :] = (alloc_n * p * gain_n) / N0_lin`. -/
noncomputable def sinr_near (alloc_n : ℝ) (t_power gain_n : ℕ → ℝ) (N0 : ℝ)
    (i k : ℕ) : ℝ :=
  (alloc_n * t_power i * gain_n k) / N0

/-- The rate map of both notebooks, `rate = np.log2(1 + sinr)`, applied
elementwise to a (power index × trial) SINR array. -/
noncomputable def rate_arr (sinr : ℕ → ℕ → ℝ) (i k : ℕ) : ℝ :=
  Real.logb 2 (1 + sinr i k)

/-- C3: for every linear transmit power in the sweep, trial-indexed squared
gain array and linear noise power, the computed per-trial SINR equals
`power · gain / (interference + N0)` — with zero interference for the
single-user link and the near user's post-SIC stage, and a power-weighted
gain term as interference for the superposition (far-user and pre-SIC)
stages — and the rate is `log2(1 + SINR)`. -/
theorem metrics_sinr_rate_formula (alloc_n alloc_f N0 : ℝ)
    (t_power gain_n gain_f mag_eff : ℕ → ℝ) (i k : ℕ) :
    sinr_single t_power mag_eff N0 i k = t_power i * mag_eff k / (0 + N0)
    ∧ sinr_far alloc_n alloc_f t_power gain_f N0 i k
        = (alloc_f * t_power i) * gain_f k / (alloc_n * t_power i * gain_f k + N0)
    ∧ sinr_pre alloc_n alloc_f t_power gain_n N0 i k
        = (alloc_f * t_power i) * gain_n k / (alloc_n * t_power i * gain_n k + N0)
    ∧ sinr_near alloc_n t_power gain_n N0 i k
        = (alloc_n * t_power i) * gain_n k / (0 + N0)
    ∧ rate_arr (sinr_single t_power mag_eff N0) i k
        = Real.logb 2 (1 + sinr_single t_power mag_eff N0 i k)
    ∧ rate_arr (sinr_far alloc_n alloc_f t_power gain_f N0) i k
        = Real.logb 2 (1 + sinr_far alloc_n alloc_f t_power gain_f N0 i k) := by
  refine ⟨by rw [zero_add]; rfl, rfl, rfl, by rw [zero_add]; rfl, rfl, rfl⟩

/-! ## Link data model (modelled from the spec) -/

/-- Modelled from the spec: the `comyx` `Link` class is not in the
repository; per §4.3 a link holds a dense complex channel-coefficient array
of shape element-count × antenna-count × number-of-trials.  Index arguments
beyond the recorded shape are incidental (functions are total). -/
@[ext]
structure Link where
  elems : ℕ
  ants : ℕ
  trials : ℕ
  complex : ℕ → ℕ → ℕ → ℂ

/-- Modelled from the spec: the `magnitude` view is the elementwise modulus
of the complex array. -/
noncomputable def Link.magnitude (L : Link) (e a t : ℕ) : ℝ :=
  Complex.abs (L.complex e a t)

/-- Modelled from the spec: the `phase` view is the elementwise angle of the
complex array. -/
noncomputable def Link.phase (L : Link) (e a t : ℕ) : ℝ :=
  Complex.arg (L.complex e a t)

/-- Modelled from the spec: the one mutation path of a `Link` — an external
phase overwrite; the magnitude envelope stays fixed and the complex array is
recomposed as `magnitude * exp(i · newPhase)`. -/
noncomputable def Link.setPhase (L : Link) (newPhase : ℕ → ℕ → ℕ → ℝ) : Link :=
  { L with
    complex := fun e a t =>
      (L.magnitude e a t : ℂ) * Complex.exp ((newPhase e a t : ℝ) * Complex.I) }

/-- C6: at all times — after construction and after any phase overwrite —
the complex array, magnitude view and phase view of a `Link` are mutually
consistent: `complex = magnitude * exp(i * phase)` elementwise; a phase
overwrite leaves the magnitude envelope fixed and recomposes the complex
array from the fixed magnitude and the new phase.  (Tolerance-free: the
embedding is over exact reals.) -/
theorem link_views_consistent (L : Link) (p : ℕ → ℕ → ℕ → ℝ) (e a t : ℕ) :
    L.complex e a t = (L.magnitude e a t : ℂ) * Complex.exp ((L.phase e a t : ℝ) * Complex.I)
    ∧ (L.setPhase p).magnitude e a t = L.magnitude e a t
    ∧ (L.setPhase p).complex e a t
        = (L.magnitude e a t : ℂ) * Complex.exp ((p e a t : ℝ) * Complex.I)
    ∧ (L.setPhase p).complex e a t
        = ((L.setPhase p).magnitude e a t : ℂ)
            * Complex.exp (((L.setPhase p).phase e a t : ℝ) * Complex.I) := by
  refine ⟨(Complex.abs_mul_exp_arg_mul_I _).symm, ?_, rfl,
    (Complex.abs_mul_exp_arg_mul_I _).symm⟩
  show Complex.abs _ = _
  rw [Link.setPhase]
  simp only [Link.magnitude, map_mul, Complex.abs_ofReal, Complex.abs_exp_ofReal_mul_I,
    mul_one]
  exact abs_of_nonneg (AbsoluteValue.nonneg _ _)

/-! ## Channel aggregation (`effective_channel_gain`, modelled from the spec) -/

/-- Modelled from the spec §7: errors when combining links; `ShapeMismatch`
is raised synchronously at the aggregation call, never deferred into later
array use — embedded as an `Except` result of the aggregation itself. -/
inductive AggError where
  | ShapeMismatch
  deriving DecidableEq

/-- Modelled from the spec §4.5: the only combination style specified is
`"sum"`. -/
inductive AggStyle where
  | sum

/-- Modelled from the spec §4.5: the shape compatibility contract of the
aggregation — the two cascade legs' element counts agree and their antenna
and trial axes agree with the direct link's. -/
def compatibleShapes (direct casTR casRU : Link) : Prop :=
  casTR.elems = casRU.elems ∧ casTR.ants = direct.ants ∧ casRU.ants = direct.ants
    ∧ casTR.trials = direct.trials ∧ casRU.trials = direct.trials

instance (direct casTR casRU : Link) : Decidable (compatibleShapes direct casTR casRU) := by
  unfold compatibleShapes
  exact inferInstance

/-- Modelled from the spec §4.4/§4.5: the reflecting node's complex
reflection coefficient per element, `amplitude * exp(i * phase)` (the
notebook stores amplitudes and phases with one value per element and
trial). -/
noncomputable def reflection_coeff (amp phs : ℕ → ℕ → ℝ) (k t : ℕ) : ℂ :=
  (amp k t : ℂ) * Complex.exp ((phs k t : ℝ) * Complex.I)

/-- Modelled from the spec §4.5: the cascade contribution — elementwise
product of the two cascade legs with the per-element reflection coefficient,
summed over the element axis. -/
noncomputable def cascaded_sum (casTR casRU : Link) (amp phs : ℕ → ℕ → ℝ)
    (a t : ℕ) : ℂ :=
  ∑ k ∈ Finset.range casTR.elems,
    reflection_coeff amp phs k t * casTR.complex k a t * casRU.complex k a t

/-- Modelled from the spec: `effective_channel_gain` is not in the
repository; per §4.5 it combines a direct link and a two-leg cascade through
a reflecting node: validate shapes (`ShapeMismatch` otherwise), then return a
new array of the direct link's shape equal to the direct array plus the
cascade sum, broadcasting over the trial axis.  It is a pure function: it
takes the reflecting node's state as arguments and returns a fresh `Link`
value, mutating nothing. -/
noncomputable def effective_channel_gain (direct casTR casRU : Link)
    (amp phs : ℕ → ℕ → ℝ) (style : AggStyle) : Except AggError Link :=
  match style with
  | .sum =>
    if compatibleShapes direct casTR casRU then
      .ok ⟨direct.elems, direct.ants, direct.trials,
        fun e a t => direct.complex e a t + cascaded_sum casTR casRU amp phs a t⟩
    else
      .error .ShapeMismatch

/-- C1: for compatible shapes, `effective_channel_gain` with style `"sum"`
returns a new complex array equal to the direct link's array plus the sum
over elements `k` of `amp_k * exp(i * phase_k)` times the BS→RIS and RIS→UE
cascade entries, broadcasting over the trial axis.  The function is pure: it
is a function of its arguments only and no node or link state occurs in the
result beyond the input arrays. -/
theorem effective_channel_gain_sum_formula (direct casTR casRU : Link)
    (amp phs : ℕ → ℕ → ℝ) (h : compatibleShapes direct casTR casRU) :
    effective_channel_gain direct casTR casRU amp phs .sum
      = .ok ⟨direct.elems, direct.ants, direct.trials,
          fun e a t => direct.complex e a t
            + ∑ k ∈ Finset.range casTR.elems,
                (amp k t : ℂ) * Complex.exp ((phs k t : ℝ) * Complex.I)
                  * casTR.complex k a t * casRU.complex k a t⟩ := by
  unfold effective_channel_gain
  rw [if_pos h]
  rfl

/-- A concrete one-element, one-antenna, one-trial link whose only entry is
`1`, used by witnesses. -/
noncomputable def unitLink : Link := ⟨1, 1, 1, fun _ _ _ => 1⟩

/-- A concrete link of two elements used by witnesses for shape mismatch. -/
noncomputable def twoElemLink : Link := ⟨2, 1, 1, fun _ _ _ => 1⟩

/-- Witness for C1: the three unit links have compatible shapes, and the
aggregation with unit amplitudes and zero phases returns the stated sum. -/
theorem effective_channel_gain_sum_formula_witness :
    compatibleShapes unitLink unitLink unitLink
    ∧ effective_channel_gain unitLink unitLink unitLink
          (fun _ _ => 1) (fun _ _ => 0) .sum
        = .ok ⟨unitLink.elems, unitLink.ants, unitLink.trials,
            fun e a t => unitLink.complex e a t
              + ∑ k ∈ Finset.range unitLink.elems,
                  ((1 : ℝ) : ℂ) * Complex.exp (((0 : ℝ) : ℝ) * Complex.I)
                    * unitLink.complex k a t * unitLink.complex k a t⟩ :=
  ⟨⟨rfl, rfl, rfl, rfl, rfl⟩,
   effective_channel_gain_sum_formula unitLink unitLink unitLink
     (fun _ _ => 1) (fun _ _ => 0) ⟨rfl, rfl, rfl, rfl, rfl⟩⟩

/-- C8: the aggregation's success value always has the direct link's shape
(element/antenna/trial counts), and whenever the cascade legs' element counts
disagree — or the shapes are incompatible in any axis — the very aggregation
call returns `ShapeMismatch`, not a deferred failure. -/
theorem effective_channel_gain_shape (direct casTR casRU : Link)
    (amp phs : ℕ → ℕ → ℝ) (style : AggStyle) :
    (∀ L, effective_channel_gain direct casTR casRU amp phs style = .ok L →
        L.elems = direct.elems ∧ L.ants = direct.ants ∧ L.trials = direct.trials)
    ∧ (casTR.elems ≠ casRU.elems →
        effective_channel_gain direct casTR casRU amp phs style
          = .error .ShapeMismatch)
    ∧ (¬ compatibleShapes direct casTR casRU →
        effective_channel_gain direct casTR casRU amp phs style
          = .error .ShapeMismatch) := by
  cases style
  unfold effective_channel_gain
  by_cases h : compatibleShapes direct casTR casRU
  · rw [if_pos h]
    refine ⟨?_, fun hne => absurd h.1 hne, fun hn => absurd h hn⟩
    intro L hL
    injection hL with hL'
    subst hL'
    exact ⟨rfl, rfl, rfl⟩
  · rw [if_neg h]
    exact ⟨fun L hL => Except.noConfusion hL, fun _ => rfl, fun _ => rfl⟩

/-- Witness for C8: legs with element counts `2` and `1` disagree, and the
aggregation call itself returns `ShapeMismatch`. -/
theorem effective_channel_gain_shape_witness :
    twoElemLink.elems ≠ unitLink.elems
    ∧ effective_channel_gain unitLink twoElemLink unitLink
          (fun _ _ => 1) (fun _ _ => 0) .sum
        = .error .ShapeMismatch :=
  ⟨by decide,
   (effective_channel_gain_shape unitLink twoElemLink unitLink
       (fun _ _ => 1) (fun _ _ => 0) .sum).2.1 (by decide)⟩

/-- C9: if the reflecting node's per-element amplitudes are all zero then the
aggregation returns exactly the direct link's array (the cascade contributes
nothing), regardless of the phase values. -/
theorem effective_channel_gain_zero_amplitude (direct casTR casRU : Link)
    (amp phs : ℕ → ℕ → ℝ) (h : compatibleShapes direct casTR casRU)
    (hamp : ∀ k t, amp k t = 0) :
    effective_channel_gain direct casTR casRU amp phs .sum = .ok direct := by
  unfold effective_channel_gain
  rw [if_pos h]
  have hfun : (fun e a t => direct.complex e a t + cascaded_sum casTR casRU amp phs a t)
      = direct.complex := by
    funext e a t
    unfold cascaded_sum reflection_coeff
    simp [hamp]
  rw [hfun]

/-- Witness for C9: with the zero amplitude map and arbitrary phases on unit
links, the aggregation returns exactly the direct link. -/
theorem effective_channel_gain_zero_amplitude_witness :
    compatibleShapes unitLink unitLink unitLink
    ∧ effective_channel_gain unitLink unitLink unitLink
          (fun _ _ => 0) (fun _ _ => 7) .sum = .ok unitLink :=
  ⟨⟨rfl, rfl, rfl, rfl, rfl⟩,
   effective_channel_gain_zero_amplitude unitLink unitLink unitLink
     (fun _ _ => 0) (fun _ _ => 7) ⟨rfl, rfl, rfl, rfl, rfl⟩ (fun _ _ => rfl)⟩

/-! ## RIS phase controller and coherent combining -/

/-- Multiplying three unit-modulus exponentials with phases `a - b - c`, `b`
and `c` yields the phase-`a` exponential; constants combine multiplicatively. -/
lemma exp_combine (a b c B C : ℝ) :
    Complex.exp ((↑(a - b - c)) * Complex.I) * (↑B * Complex.exp ((b : ℂ) * Complex.I))
        * (↑C * Complex.exp ((c : ℂ) * Complex.I))
      = ↑(B * C) * Complex.exp ((a : ℂ) * Complex.I) := by
  have hexp : Complex.exp ((↑(a - b - c)) * Complex.I) * Complex.exp ((b : ℂ) * Complex.I)
      * Complex.exp ((c : ℂ) * Complex.I) = Complex.exp ((a : ℂ) * Complex.I) := by
    rw [← Complex.exp_add, ← Complex.exp_add]
    congr 1
    push_cast
    ring
  calc Complex.exp ((↑(a - b - c)) * Complex.I) * (↑B * Complex.exp ((b : ℂ) * Complex.I))
        * (↑C * Complex.exp ((c : ℂ) * Complex.I))
      = ((B : ℂ) * (C : ℂ)) * (Complex.exp ((↑(a - b - c)) * Complex.I)
          * Complex.exp ((b : ℂ) * Complex.I) * Complex.exp ((c : ℂ) * Complex.I)) := by
        ring
    _ = ((B : ℂ) * (C : ℂ)) * Complex.exp ((a : ℂ) * Complex.I) := by rw [hexp]
    _ = ↑(B * C) * Complex.exp ((a : ℂ) * Complex.I) := by push_cast; ring

/-- Rotating the product of two complex factors by the phase
`θ - arg z - arg w` aligns it to phase `θ` with magnitude `|z| * |w|`. -/
lemma coherent_term_eq (θ : ℝ) (z w : ℂ) :
    Complex.exp ((↑(θ - z.arg - w.arg)) * Complex.I) * z * w
      = ↑(Complex.abs z * Complex.abs w) * Complex.exp ((θ : ℂ) * Complex.I) := by
  conv_lhs => enter [1, 2]; rw [← Complex.abs_mul_exp_arg_mul_I z]
  conv_lhs => enter [2]; rw [← Complex.abs_mul_exp_arg_mul_I w]
  exact exp_combine θ z.arg w.arg (Complex.abs z) (Complex.abs w)

/-- Embedding of the phase-controller line of `ris_enhanced.ipynb`,
`R.phase_shifts = np.squeeze(theta_d) - np.squeeze(theta_tR) - np.squeeze(theta_Rr)`:
per element `k` and trial `t`, `φ_k = θ_d - θ_tR,k - θ_Rr,k`, a closed-form
expression with no iterative search (`squeeze` drops the unit antenna axes,
embedded by fixing those indices to `0`). -/
noncomputable def ris_optimal_phase_shifts (direct casTR casRU : Link) (k t : ℕ) : ℝ :=
  direct.phase 0 0 t - casTR.phase k 0 t - casRU.phase k 0 t

/-- C4: the phase controller computes `φ_k = θ_d - θ_tR,k - θ_Rr,k` in closed
form, and after these phases are applied as the reflecting node's phase
state, each element's aggregated cascade term
`exp(i φ_k) · h_tR,k · h_Rr,k` has phase exactly `θ_d` — the cascade path is
phase-coherent with the direct path (exact in the real-number embedding). -/
theorem ris_phase_coherence (direct casTR casRU : Link) (k t : ℕ)
    (h1 : casTR.complex k 0 t ≠ 0) (h2 : casRU.complex k 0 t ≠ 0) :
    Complex.arg (Complex.exp ((↑(ris_optimal_phase_shifts direct casTR casRU k t)) * Complex.I)
        * casTR.complex k 0 t * casRU.complex k 0 t)
      = direct.phase 0 0 t := by
  unfold ris_optimal_phase_shifts Link.phase
  rw [coherent_term_eq]
  rw [Complex.arg_real_mul _
    (mul_pos (AbsoluteValue.pos Complex.abs h1) (AbsoluteValue.pos Complex.abs h2))]
  rw [Complex.exp_mul_I]
  exact Complex.arg_cos_add_sin_mul_I (Complex.arg_mem_Ioc _)

/-- Witness for C4: on unit links all entries are `1 ≠ 0`; the rotated
cascade term has the direct link's phase. -/
theorem ris_phase_coherence_witness :
    unitLink.complex 0 0 0 ≠ 0
    ∧ Complex.arg
        (Complex.exp ((↑(ris_optimal_phase_shifts unitLink unitLink unitLink 0 0))
            * Complex.I)
          * unitLink.complex 0 0 0 * unitLink.complex 0 0 0)
      = unitLink.phase 0 0 0 :=
  ⟨one_ne_zero,
   ris_phase_coherence unitLink unitLink unitLink 0 0 one_ne_zero one_ne_zero⟩

/-- With unit amplitudes and the controller's optimal phase shifts, the
cascade sum collapses to the real magnitude sum rotated to the direct link's
phase. -/
lemma cascaded_sum_optimal (direct casTR casRU : Link) (t : ℕ) :
    cascaded_sum casTR casRU (fun _ _ => 1) (ris_optimal_phase_shifts direct casTR casRU) 0 t
      = ↑(∑ k ∈ Finset.range casTR.elems,
            Complex.abs (casTR.complex k 0 t) * Complex.abs (casRU.complex k 0 t))
          * Complex.exp ((↑((direct.complex 0 0 t).arg)) * Complex.I) := by
  unfold cascaded_sum reflection_coeff ris_optimal_phase_shifts Link.phase
  rw [Complex.ofReal_sum, Finset.sum_mul]
  refine Finset.sum_congr rfl fun k _ => ?_
  rw [Complex.ofReal_one, one_mul]
  exact coherent_term_eq _ _ _

/-- C10: if the reflecting node's amplitudes are all one and its phases are
the controller's optimal `φ_k = θ_d - θ_tR,k - θ_Rr,k`, then for every trial
the magnitude of the effective channel gain equals
`|h_d| + Σ_k |h_tR,k| · |h_Rr,k|`, and in particular is at least the direct
link's magnitude in that trial. -/
theorem effective_channel_gain_coherent_magnitude (direct casTR casRU : Link)
    (h : compatibleShapes direct casTR casRU) (t : ℕ) :
    (effective_channel_gain direct casTR casRU (fun _ _ => 1)
          (ris_optimal_phase_shifts direct casTR casRU) .sum).map
        (fun L => Complex.abs (L.complex 0 0 t))
      = .ok (Complex.abs (direct.complex 0 0 t)
          + ∑ k ∈ Finset.range casTR.elems,
              Complex.abs (casTR.complex k 0 t) * Complex.abs (casRU.complex k 0 t))
    ∧ Complex.abs (direct.complex 0 0 t)
        ≤ Complex.abs (direct.complex 0 0 t)
          + ∑ k ∈ Finset.range casTR.elems,
              Complex.abs (casTR.complex k 0 t) * Complex.abs (casRU.complex k 0 t) := by
  have hS : (0 : ℝ) ≤ ∑ k ∈ Finset.range casTR.elems,
      Complex.abs (casTR.complex k 0 t) * Complex.abs (casRU.complex k 0 t) :=
    Finset.sum_nonneg fun k _ =>
      mul_nonneg (AbsoluteValue.nonneg _ _) (AbsoluteValue.nonneg _ _)
  constructor
  · unfold effective_channel_gain
    rw [if_pos h]
    show Except.ok _ = _
    congr 1
    show Complex.abs (direct.complex 0 0 t
        + cascaded_sum casTR casRU (fun _ _ => 1)
            (ris_optimal_phase_shifts direct casTR casRU) 0 t) = _
    rw [cascaded_sum_optimal]
    have hd : direct.complex 0 0 t
          + ↑(∑ k ∈ Finset.range casTR.elems,
                Complex.abs (casTR.complex k 0 t) * Complex.abs (casRU.complex k 0 t))
              * Complex.exp ((↑((direct.complex 0 0 t).arg)) * Complex.I)
        = ↑(Complex.abs (direct.complex 0 0 t)
              + ∑ k ∈ Finset.range casTR.elems,
                  Complex.abs (casTR.complex k 0 t) * Complex.abs (casRU.complex k 0 t))
            * Complex.exp ((↑((direct.complex 0 0 t).arg)) * Complex.I) := by
      conv_lhs => enter [1]; rw [← Complex.abs_mul_exp_arg_mul_I (direct.complex 0 0 t)]
      push_cast
      ring
    rw [hd, map_mul, Complex.abs_ofReal, Complex.abs_exp_ofReal_mul_I, mul_one]
    exact abs_of_nonneg (add_nonneg (AbsoluteValue.nonneg _ _) hS)
  · exact le_add_of_nonneg_right hS

/-- Witness for C10: on compatible unit links, the theorem yields the
magnitude identity and the lower bound at trial `0`. -/
theorem effective_channel_gain_coherent_magnitude_witness :
    compatibleShapes unitLink unitLink unitLink
    ∧ ((effective_channel_gain unitLink unitLink unitLink (fun _ _ => 1)
            (ris_optimal_phase_shifts unitLink unitLink unitLink) .sum).map
          (fun L => Complex.abs (L.complex 0 0 0))
        = .ok (Complex.abs (unitLink.complex 0 0 0)
            + ∑ k ∈ Finset.range unitLink.elems,
                Complex.abs (unitLink.complex k 0 0) * Complex.abs (unitLink.complex k 0 0))
      ∧ Complex.abs (unitLink.complex 0 0 0)
          ≤ Complex.abs (unitLink.complex 0 0 0)
            + ∑ k ∈ Finset.range unitLink.elems,
                Complex.abs (unitLink.complex k 0 0)
                  * Complex.abs (unitLink.complex k 0 0)) :=
  ⟨⟨rfl, rfl, rfl, rfl, rfl⟩,
   effective_channel_gain_coherent_magnitude unitLink unitLink unitLink
     ⟨rfl, rfl, rfl, rfl, rfl⟩ 0⟩

/-! ## Link construction (modelled from the spec) -/

/-- Modelled from the spec §3: a positioned actor with an identity name, a
3D position and an antenna/element count. -/
structure Node where
  name : String
  position : Fin 3 → ℝ
  n_antennas : ℕ

/-- Modelled from the spec §3: the fading specification variants used by the
notebooks (`rayleigh` with `sigma`, `nakagami` with shape `m` and scale
`omega`; the sampled usage has integer `m`, kept as `ℕ` so the Erlang
representation of the magnitude draw is exact). -/
inductive FadingSpec where
  | rayleigh (sigma : ℝ)
  | nakagami (m : ℕ) (omega : ℝ)

/-- Modelled from the spec §4.1: the Rician line-of-sight insertion order —
the unit-magnitude specular component is added before (`pre`) or after
(`post`) pathloss scaling. -/
inductive LosOrder where
  | pre
  | post

/-- Modelled from the spec: the `rician_args` mapping of the notebooks, a
linear K-factor and the insertion order. -/
structure RicianArgs where
  K : ℝ
  order : LosOrder

/-- Modelled from the spec §3/§4.2: the reference-distance pathloss
specification — exponent `alpha`, reference power `p0` in dBm, carrier
frequency. -/
structure PathlossSpec where
  alpha : ℝ
  p0 : ℝ
  frequency : ℝ

/-- Modelled from the spec §6: `dbm2pow`, dBm to Watt. -/
noncomputable def dbm2pow (x : ℝ) : ℝ := (10 : ℝ) ^ ((x - 30) / 10)

/-- Modelled from the spec §6: Euclidean distance between 3D positions. -/
noncomputable def getDistance (p q : Fin 3 → ℝ) : ℝ :=
  Real.sqrt (∑ i, (p i - q i) ^ 2)

/-- Modelled from the spec §4.2: reference-distance power-law attenuation,
`pathloss_linear = p0_linear * d^(-alpha)`. -/
noncomputable def pathloss_linear (ps : PathlossSpec) (d : ℝ) : ℝ :=
  dbm2pow ps.p0 * d ^ (-ps.alpha)

/-- Modelled from the spec §6: `generateSeed`, a stable hash of a link
identity string to a reproducible integer seed (a pure fold over the
characters; the library's exact hash is not in the repository, only its
determinism matters here). -/
def generateSeed (ident : String) : ℕ :=
  ident.toList.foldl (fun h c => (h * 31 + c.toNat) % 4294967296) 7

/-- A linear congruential step, the deterministic pseudo-random core of the
modelled sampler. -/
def lcg (x : ℕ) : ℕ := (1103515245 * x + 12345) % 2147483648

/-- The seeded pseudo-random stream: iterated `lcg` from the seed. -/
def prngStream (seed : ℕ) : ℕ → ℕ
  | 0 => lcg seed
  | n + 1 => lcg (prngStream seed n)

/-- A uniform draw in `[0, 1)` from the seeded stream. -/
noncomputable def unifSample (seed n : ℕ) : ℝ :=
  (prngStream seed n : ℝ) / 2147483648

/-- Modelled from the spec §4.1: the magnitude draw per fading law — Rayleigh
by inverse transform, Nakagami with integer shape via its Erlang (sum of
exponentials) representation. -/
noncomputable def magSample : FadingSpec → ℕ → ℕ → ℝ
  | .rayleigh sigma, seed, n =>
      Real.sqrt (2 * sigma ^ 2 * (-Real.log (1 - unifSample seed (2 * n))))
  | .nakagami m omega, seed, n =>
      Real.sqrt ((omega / m)
        * ∑ j ∈ Finset.range m, -Real.log (1 - unifSample seed (2 * (n * m + j))))

/-- Modelled from the spec §4.1: the uniform phase draw on `[0, 2π)`. -/
noncomputable def phaseSample (seed n : ℕ) : ℝ :=
  2 * Real.pi * unifSample seed (2 * n + 1)

/-- Modelled from the spec §4.1: one complex scattered-fading sample —
drawn magnitude times a uniform-phase unit exponential. -/
noncomputable def scatteredSample (spec : FadingSpec) (seed n : ℕ) : ℂ :=
  (magSample spec seed n : ℂ) * Complex.exp ((phaseSample seed n : ℝ) * Complex.I)

/-- Modelled from the spec §4.1/§4.3: one channel coefficient — the
scattered sample scaled by the amplitude-domain pathloss `sqrt(pl)`; under
Rician arguments a deterministic unit-magnitude specular component scaled by
`sqrt(K)` is combined and the result normalized by `sqrt(K + 1)`, the
specular term inserted before (`pre`) or after (`post`) the pathloss
scaling. -/
noncomputable def channelSample (spec : FadingSpec) (rician : Option RicianArgs)
    (pl : ℝ) (seed n : ℕ) : ℂ :=
  match rician with
  | none => (Real.sqrt pl : ℂ) * scatteredSample spec seed n
  | some r =>
    match r.order with
    | .pre => (Real.sqrt pl : ℂ)
        * (((Real.sqrt r.K : ℝ) : ℂ) + scatteredSample spec seed n)
        / ((Real.sqrt (r.K + 1) : ℝ) : ℂ)
    | .post => (((Real.sqrt r.K : ℝ) : ℂ)
        + (Real.sqrt pl : ℂ) * scatteredSample spec seed n)
        / ((Real.sqrt (r.K + 1) : ℝ) : ℂ)

/-- Modelled from the spec §4.3: `Link` construction — compute the Euclidean
distance between the endpoint nodes, the scalar pathloss, and fill the
element × antenna × trial array with seeded channel samples, one stream
index per array cell. -/
noncomputable def buildLink (nodeA nodeB : Node) (fading : FadingSpec)
    (ps : PathlossSpec) (rician : Option RicianArgs)
    (elems ants trials seed : ℕ) : Link :=
  ⟨elems, ants, trials,
    fun e a t =>
      channelSample fading rician
        (pathloss_linear ps (getDistance nodeA.position nodeB.position))
        seed ((e * ants + a) * trials + t)⟩

/-- C7: Link construction is deterministic — two links built from identical
endpoint identities, fading and pathloss specifications, shape, and the seed
derived stably from the endpoint-pair identity string produce identical
complex arrays. -/
theorem link_construction_deterministic (A B A' B' : Node)
    (f f' : FadingSpec) (p p' : PathlossSpec) (r r' : Option RicianArgs)
    (elems ants trials : ℕ)
    (hA : A = A') (hB : B = B') (hf : f = f') (hp : p = p') (hr : r = r') :
    (buildLink A B f p r elems ants trials
        (generateSeed (A.name ++ "-" ++ B.name))).complex
      = (buildLink A' B' f' p' r' elems ants trials
          (generateSeed (A'.name ++ "-" ++ B'.name))).complex := by
  subst hA
  subst hB
  subst hf
  subst hp
  subst hr
  rfl

/-- Witness for C7: two constructions of the BS→UE link from equal inputs
coincide. -/
theorem link_construction_deterministic_witness :
    (buildLink ⟨"BS", fun _ => 0, 1⟩ ⟨"UE", fun _ => 1, 1⟩ (.rayleigh (1 / 2))
        ⟨3.5, 20, 2400000000⟩ none 1 1 4
        (generateSeed ((Node.name ⟨"BS", fun _ => 0, 1⟩) ++ "-"
          ++ (Node.name ⟨"UE", fun _ => 1, 1⟩)))).complex
      = (buildLink ⟨"BS", fun _ => 0, 1⟩ ⟨"UE", fun _ => 1, 1⟩ (.rayleigh (1 / 2))
          ⟨3.5, 20, 2400000000⟩ none 1 1 4
          (generateSeed ((Node.name ⟨"BS", fun _ => 0, 1⟩) ++ "-"
            ++ (Node.name ⟨"UE", fun _ => 1, 1⟩)))).complex :=
  link_construction_deterministic ⟨"BS", fun _ => 0, 1⟩ ⟨"UE", fun _ => 1, 1⟩
    ⟨"BS", fun _ => 0, 1⟩ ⟨"UE", fun _ => 1, 1⟩ (.rayleigh (1 / 2)) (.rayleigh (1 / 2))
    ⟨3.5, 20, 2400000000⟩ ⟨3.5, 20, 2400000000⟩ none none 1 1 4
    rfl rfl rfl rfl rfl
